import Mathlib

/-!
Verification of the codex-changelog release-notes pipeline.

JavaScript strings are modelled as lists of UTF-16 code units (`List Nat`),
so `String.prototype.length`, `slice`, concatenation and substring search
coincide with `List.length`, `take`/`drop`, `++` and `List.IsInfix`.
Characters outside the BMP (such as the 🚀 header emoji) encode to a
surrogate pair, exactly as in JS.
-/

set_option maxHeartbeats 1000000
set_option maxRecDepth 100000

/-- A JavaScript string: its sequence of UTF-16 code units. -/
abbrev JSStr := List Nat

/-- UTF-16 code units of one Unicode character (surrogate pair outside the BMP). -/
def encodeUnit (c : Char) : List Nat :=
  if c.toNat < 0x10000 then [c.toNat]
  else [0xD800 + (c.toNat - 0x10000) / 0x400, 0xDC00 + (c.toNat - 0x10000) % 0x400]

/-- Encode a Lean string literal as a JS string (UTF-16 code units). -/
def str (s : String) : JSStr := s.data.flatMap encodeUnit

/-- Decimal rendering of a non-negative integer, as JS string interpolation produces. -/
def natStr (n : Nat) : JSStr := str (Nat.repr n)

/-! ## Segment packer, short-form deployment (src/formatter.ts) -/

structure TweetThread where
  tweets : List JSStr
  deriving DecidableEq, Repr

structure SectionCounts where
  bugFixes : Nat
  docs : Nat
  chores : Nat
  deriving DecidableEq, Repr

def MAX_TWEET_LENGTH : Nat := 280
def MAX_FEATURE_LENGTH : Nat := 100

def truncateFeature (feature : JSStr) : JSStr :=
  if feature.length ≤ MAX_FEATURE_LENGTH then feature
  else feature.take (MAX_FEATURE_LENGTH - 3) ++ str "..."

def buildHeader (version : JSStr) : JSStr :=
  str "🚀 Codex v" ++ version ++ str " released!"

def buildUrlLine (releaseUrl : JSStr) : JSStr :=
  str "Full release notes: " ++ releaseUrl

def buildAlsoLine (counts : SectionCounts) : JSStr :=
  let parts : List JSStr :=
    (if 0 < counts.bugFixes then
      [natStr counts.bugFixes ++ str " bug fix" ++ (if 1 < counts.bugFixes then str "es" else [])]
     else []) ++
    (if 0 < counts.docs then
      [natStr counts.docs ++ str " doc" ++ (if 1 < counts.docs then str "s" else [])]
     else []) ++
    (if 0 < counts.chores then
      [natStr counts.chores ++ str " chore" ++ (if 1 < counts.chores then str "s" else [])]
     else [])
  if parts = [] then [] else str "Also: " ++ List.intercalate (str ", ") parts

/-- `• ${feature}` -/
def lineOf (feature : JSStr) : JSStr := str "• " ++ feature

/-- `features.map((f) => `• ${f}`).join("\n")` -/
def joinLines : List JSStr → JSStr
  | [] => []
  | [f] => lineOf f
  | f :: g :: rest => lineOf f ++ str "\n" ++ joinLines (g :: rest)

def buildSingleTweet (version : JSStr) (features : List JSStr) (releaseUrl : JSStr)
    (counts : SectionCounts) : JSStr :=
  let header := buildHeader version
  let urlLine := buildUrlLine releaseUrl
  let alsoLine := buildAlsoLine counts
  if features = [] then
    if alsoLine ≠ [] then header ++ str "\n\n" ++ alsoLine ++ str "\n\n" ++ urlLine
    else header ++ str "\n\n" ++ urlLine
  else
    let featureList := joinLines features
    if alsoLine ≠ [] then
      header ++ str "\n\nNew Features:\n" ++ featureList ++ str "\n\n" ++ alsoLine
        ++ str "\n\n" ++ urlLine
    else
      header ++ str "\n\nNew Features:\n" ++ featureList ++ str "\n\n" ++ urlLine

/-- The 8-character placeholder `" (XX/XX)"` reserved for the numbering suffix. -/
def numberingSuffix : JSStr := str " (XX/XX)"

/-- The footer of the final tweet: `alsoLine\n\nurlLine` or just the url line. -/
def lastFooterOf (releaseUrl : JSStr) (counts : SectionCounts) : JSStr :=
  if buildAlsoLine counts ≠ [] then
    buildAlsoLine counts ++ str "\n\n" ++ buildUrlLine releaseUrl
  else buildUrlLine releaseUrl

/-- The first-tweet loop's `testContent`:
`${firstTweetContent}\n${currentFeatures}${featureLine}${numberingSuffix}`. -/
def firstTestContent (firstContent : JSStr) (acc : List JSStr) (f : JSStr) : JSStr :=
  firstContent ++ str "\n" ++ (if acc ≠ [] then joinLines acc ++ str "\n" else []) ++
    lineOf f ++ numberingSuffix

/-- The first-tweet packing loop: greedily take features while
`firstTweetContent\n<lines so far>\n<line><placeholder>` stays within the limit. -/
def greedyFirst (firstContent : JSStr) (acc : List JSStr) : List JSStr → List JSStr
  | [] => acc
  | f :: rest =>
    if (firstTestContent firstContent acc f).length ≤ MAX_TWEET_LENGTH then
      greedyFirst firstContent (acc ++ [f]) rest
    else acc

/-- The middle-tweet loop's `testContent`:
`${currentLines}${featureLine}${numberingSuffix}`. -/
def middleTestContent (acc : List JSStr) (f : JSStr) : JSStr :=
  (if acc ≠ [] then joinLines acc ++ str "\n" else []) ++ lineOf f ++ numberingSuffix

/-- The middle-tweet packing loop: greedily take features while
`<lines so far>\n<line><placeholder>` stays within the limit. -/
def greedyMiddle (acc : List JSStr) : List JSStr → List JSStr
  | [] => acc
  | f :: rest =>
    if (middleTestContent acc f).length ≤ MAX_TWEET_LENGTH then greedyMiddle (acc ++ [f]) rest
    else acc

/-- The `while (remainingFeatures.length > 0)` loop: emits middle-tweet contents and,
when the remaining features plus the footer fit into one tweet, the final footer tweet.
Returns the contents together with the `footerAdded` flag. Runs on explicit fuel
(one unit per iteration; the loop consumes at least one feature per iteration, so
`fuel = remaining.length` suffices). -/
def packMiddle (footer : JSStr) : Nat → List JSStr → List JSStr × Bool
  | _, [] => ([], false)
  | 0, _ :: _ => ([], false)
  | fuel + 1, x :: rest =>
    let rem := x :: rest
    let remLines := joinLines rem
    let lastCandidate := remLines ++ str "\n\n" ++ footer ++ numberingSuffix
    if lastCandidate.length ≤ MAX_TWEET_LENGTH then
      ([remLines ++ str "\n\n" ++ footer], true)
    else
      let chunk := greedyMiddle [] rem
      if chunk = [] then
        let p := packMiddle footer fuel rest
        (lineOf x :: p.1, p.2)
      else
        let p := packMiddle footer fuel (rem.drop chunk.length)
        (joinLines chunk :: p.1, p.2)

/-- ` (${i + 1}/${total})` -/
def suffixFor (i total : Nat) : JSStr :=
  str " (" ++ natStr (i + 1) ++ str "/" ++ natStr total ++ str ")"

/-- `tweetContents.map((content, i) => `${content} (${i + 1}/${totalTweets})`)` -/
def numberFrom (total : Nat) : Nat → List JSStr → List JSStr
  | _, [] => []
  | i, c :: cs => (c ++ suffixFor i total) :: numberFrom total (i + 1) cs

def formatTweets (version : JSStr) (features : List JSStr) (releaseUrl : JSStr)
    (counts : SectionCounts) : TweetThread :=
  let truncatedFeatures := features.map truncateFeature
  let singleTweet := buildSingleTweet version truncatedFeatures releaseUrl counts
  if singleTweet.length ≤ MAX_TWEET_LENGTH then ⟨[singleTweet]⟩
  else
    let header := buildHeader version
    let lastTweetFooter := lastFooterOf releaseUrl counts
    let firstTweetContent := header ++ str "\n\nNew Features:"
    let featuresInFirst := greedyFirst firstTweetContent [] truncatedFeatures
    let firstTweet :=
      if featuresInFirst ≠ [] then firstTweetContent ++ str "\n" ++ joinLines featuresInFirst
      else firstTweetContent
    let remainingFeatures := truncatedFeatures.drop featuresInFirst.length
    let p := packMiddle lastTweetFooter remainingFeatures.length remainingFeatures
    let tweetContents := firstTweet :: (p.1 ++ (if p.2 then [] else [lastTweetFooter]))
    ⟨numberFrom tweetContents.length 0 tweetContents⟩

/-! ## Segment packer, long-form deployment (the X-Premium variant):
`buildCategorySection` and `splitCategoryIntoTweets`. -/

namespace LongForm

def TARGET_TWEET_LENGTH : Nat := 800
def MAX_PREVIEW_ITEMS : Nat := 4

/-- `\n• ${item}` -/
def bullet (item : JSStr) : JSStr := str "\n• " ++ item

/-- The `for` loop appending `\n• ${item}` for each display item. -/
def bullets (items : List JSStr) : JSStr := (items.map bullet).flatten

/-- `\n• ${k} more...` -/
def moreMarker (k : Nat) : JSStr := str "\n• " ++ natStr k ++ str " more..."

def buildCategorySection (title : JSStr) (items : List JSStr) (allowTruncation : Bool) : JSStr :=
  if items = [] then []
  else
    let displayItems := if allowTruncation then items.take MAX_PREVIEW_ITEMS else items
    let remaining := items.length - displayItems.length
    let sec := title ++ str ":" ++ bullets displayItems
    if 0 < remaining then sec ++ moreMarker remaining else sec

/-- The `for (let i = 0; i < items.length; i++)` loop of `splitCategoryIntoTweets`,
one recursive step per iteration. `cur` is `currentTweet`, `n` is
`itemsInCurrentTweet`, `acc` is the `tweets` array; `rest.length` is the loop's
`remaining = items.length - i - 1`. -/
def splitGo (title : JSStr) : JSStr → Nat → List JSStr → List JSStr → List JSStr
  | cur, _, acc, [] =>
    if cur ≠ title ++ str ":" ∧ cur ≠ title ++ str " (cont.):" then acc ++ [cur] else acc
  | cur, n, acc, x :: rest =>
    let line := bullet x
    if (cur ++ line).length ≤ TARGET_TWEET_LENGTH then
      splitGo title (cur ++ line) (n + 1) acc rest
    else if n = 0 then
      splitGo title (cur ++ line) (n + 1) acc rest
    else if 0 < rest.length ∧ 1 ≤ acc.length then
      acc ++ [cur ++ moreMarker (rest.length + 1)]
    else
      splitGo title (title ++ str " (cont.):" ++ line) 1 (acc ++ [cur]) rest

def splitCategoryIntoTweets (title : JSStr) (items : List JSStr) : List JSStr :=
  if items = [] then []
  else
    let singleSection := buildCategorySection title items true
    if singleSection.length ≤ TARGET_TWEET_LENGTH then [singleSection]
    else splitGo title (title ++ str ":") 0 [] items

/-! Rendering vocabulary used to state the elision-exactness property. -/

/-- A first chunk of a category: `Title:` followed by its bullet lines. -/
def renderFirst (title : JSStr) (chunk : List JSStr) : JSStr := title ++ str ":" ++ bullets chunk

/-- A continuation chunk: `Title (cont.):` followed by its bullet lines. -/
def renderCont (title : JSStr) (chunk : List JSStr) : JSStr :=
  title ++ str " (cont.):" ++ bullets chunk

/-- Renders a chunk list: the first chunk plainly, the rest with the `(cont.)` label. -/
def renderChunks (title : JSStr) : List (List JSStr) → List JSStr
  | [] => []
  | c :: cs => renderFirst title c :: cs.map (renderCont title)

/-- Appends a suffix to the last string of a list. -/
def appendToLast (suffix : JSStr) : List JSStr → List JSStr
  | [] => []
  | [t] => [t ++ suffix]
  | t :: u :: rest => t :: appendToLast suffix (u :: rest)

end LongForm

/-! ## Entity extractor (src/parser.ts) -/

structure ParsedRelease where
  features : List JSStr
  bugFixes : Nat
  docs : Nat
  chores : Nat
  raw : JSStr
  deriving DecidableEq, Repr

/-- The JS `\s` class (ECMAScript WhiteSpace plus LineTerminator), by code unit. -/
def isJsWs (u : Nat) : Bool :=
  decide (u = 9 ∨ u = 10 ∨ u = 11 ∨ u = 12 ∨ u = 13 ∨ u = 32 ∨ u = 0xa0 ∨ u = 0x1680 ∨
    (0x2000 ≤ u ∧ u ≤ 0x200a) ∨ u = 0x2028 ∨ u = 0x2029 ∨ u = 0x202f ∨ u = 0x205f ∨
    u = 0x3000 ∨ u = 0xfeff)

/-- The regex class `[^\S\n]`: whitespace other than a newline. -/
def isHorizWs (u : Nat) : Bool := isJsWs u && !(u == 10)

def isDigitUnit (u : Nat) : Bool := decide (48 ≤ u ∧ u ≤ 57)

/-- `String.prototype.trim` (same whitespace set as `\s`). -/
def trimJs (s : JSStr) : JSStr :=
  ((s.dropWhile isJsWs).reverse.dropWhile isJsWs).reverse

/-- ASCII case folding; the only case pairs exercised by the patterns and
identifiers this development reasons about (all of them ASCII). -/
def lowerUnit (u : Nat) : Nat := if 65 ≤ u ∧ u ≤ 90 then u + 32 else u

def lowerJs (s : JSStr) : JSStr := s.map lowerUnit

/-- Case-sensitive or (ASCII-)case-insensitive literal prefix test, for regex
literals compiled with or without the `i` flag. -/
def litPrefix (ci : Bool) (pat s : JSStr) : Bool :=
  if ci then (lowerJs pat).isPrefixOf (lowerJs s) else pat.isPrefixOf s

/-- `String.prototype.split(sep)` for a one-character separator. -/
def splitOnUnit (sep : Nat) : JSStr → List JSStr
  | [] => [[]]
  | u :: rest =>
    let r := splitOnUnit sep rest
    if u = sep then [] :: r
    else
      match r with
      | [] => [[u]]
      | h :: t => (u :: h) :: t

/-- The lazy capture `([\s\S]*?)` bounded by the lookahead `(?=\n## |$)`:
shortest prefix whose remainder starts with `\n## ` or is the end of input. -/
def mdCapture : JSStr → JSStr
  | [] => []
  | s@(u :: rest) => if (str "\n## ").isPrefixOf s then [] else u :: mdCapture rest

/-- One attempt of `## ${name}[^\S\n]*\n([\s\S]*?)(?=\n## |$)` anchored at the start
of `s`; returns `(raw match, captured content)`.  `[^\S\n]*` is greedy and is
followed by a character (`\n`) it can never match, so only the maximal run works. -/
def mdSectionAt (ci : Bool) (name : JSStr) (s : JSStr) : Option (JSStr × JSStr) :=
  let pre := str "## " ++ name
  if litPrefix ci pre s then
    let rest₁ := s.drop pre.length
    let wsRun := rest₁.takeWhile isHorizWs
    match rest₁.drop wsRun.length with
    | 10 :: rest₂ =>
      let content := mdCapture rest₂
      some (s.take (pre.length + wsRun.length + 1 + content.length), content)
    | _ => none
  else none

/-- Regex scan: earliest start position at which the section pattern matches. -/
def mdSectionFrom (ci : Bool) (name : JSStr) : JSStr → Option (JSStr × JSStr)
  | [] => mdSectionAt ci name []
  | s@(_ :: rest) =>
    match mdSectionAt ci name s with
    | some r => some r
    | none => mdSectionFrom ci name rest

/-! ### Per-item cleaning (`cleanFeature`) -/

/-- One global pass of `replace(/<[^>]+>/g, '')`: at a `<`, the greedy `[^>]+`
runs to the first `>` (shorter runs still end before a `>`, so backtracking
never helps); a match needs at least one unit between `<` and `>`.  Fuel is one
unit per consumed input unit. -/
def stripTags : Nat → JSStr → JSStr
  | 0, s => s
  | _ + 1, [] => []
  | fuel + 1, u :: rest =>
    if u = 60 then
      match rest.findIdx? (fun w => w == 62) with
      | some j => if 1 ≤ j then stripTags fuel (rest.drop (j + 1)) else u :: stripTags fuel rest
      | none => u :: stripTags fuel rest
    else u :: stripTags fuel rest

/-- `(?:,\s*#\d+)*\)`: consumes zero or more `,\s*#\d+` groups then the closing
`)`, returning the number of units consumed.  The repetition is greedy, and on a
group failure no shorter repetition can reach `)` (the next unit is `,`), so
failure is final. -/
def refGroups : Nat → JSStr → Option Nat
  | 0, _ => none
  | _ + 1, 41 :: _ => some 1
  | fuel + 1, 44 :: r =>
    let ws := r.takeWhile isJsWs
    (match r.drop ws.length with
     | 35 :: r₂ =>
       let ds := r₂.takeWhile isDigitUnit
       if ds = [] then none
       else
         match refGroups fuel (r₂.drop ds.length) with
         | some g => some (1 + ws.length + 1 + ds.length + g)
         | none => none
     | _ => none)
  | _ + 1, _ => none

/-- A match of `\s*\(#\d+(?:,\s*#\d+)*\)\s*` anchored at the start of `s`,
returning its length. -/
def refMatchAt (s : JSStr) : Option Nat :=
  let ws₁ := s.takeWhile isJsWs
  match s.drop ws₁.length with
  | 40 :: 35 :: r₂ =>
    let ds := r₂.takeWhile isDigitUnit
    if ds = [] then none
    else
      match refGroups r₂.length (r₂.drop ds.length) with
      | some g =>
        let r₄ := r₂.drop (ds.length + g)
        some (ws₁.length + 2 + ds.length + g + (r₄.takeWhile isJsWs).length)
      | none => none
  | _ => none

/-- `replace(/\s*\(#\d+(?:,\s*#\d+)*\)\s*/g, '')` (every match is ≥ 4 units long). -/
def stripRefs : Nat → JSStr → JSStr
  | 0, s => s
  | _ + 1, [] => []
  | fuel + 1, s@(u :: rest) =>
    match refMatchAt s with
    | some k => stripRefs fuel (s.drop k)
    | none => u :: stripRefs fuel rest

/-- A match of `\s*\(#\d+\)\s*` anchored at the start of `s`, returning its length. -/
def refSingleMatchAt (s : JSStr) : Option Nat :=
  let ws₁ := s.takeWhile isJsWs
  match s.drop ws₁.length with
  | 40 :: 35 :: r₂ =>
    let ds := r₂.takeWhile isDigitUnit
    if ds = [] then none
    else
      match r₂.drop ds.length with
      | 41 :: r₃ => some (ws₁.length + 2 + ds.length + 1 + (r₃.takeWhile isJsWs).length)
      | _ => none
  | _ => none

/-- `replace(/\s*\(#\d+\)\s*/g, '')`. -/
def stripSingleRefs : Nat → JSStr → JSStr
  | 0, s => s
  | _ + 1, [] => []
  | fuel + 1, s@(u :: rest) =>
    match refSingleMatchAt s with
    | some k => stripSingleRefs fuel (s.drop k)
    | none => u :: stripSingleRefs fuel rest

/-- `replace(/\s+/g, ' ')`: each maximal whitespace run becomes one space. -/
def collapseWs : Nat → JSStr → JSStr
  | 0, s => s
  | _ + 1, [] => []
  | fuel + 1, u :: rest =>
    if isJsWs u then 32 :: collapseWs fuel (rest.drop (rest.takeWhile isJsWs).length)
    else u :: collapseWs fuel rest

/-- Cleans a feature string: strip HTML tags, strip PR references, collapse
whitespace, trim. -/
def cleanFeature (text : JSStr) : JSStr :=
  let t₁ := stripTags text.length text
  let t₂ := stripRefs t₁.length t₁
  let t₃ := stripSingleRefs t₂.length t₂
  trimJs (collapseWs t₃.length t₃)

/-! ### Markdown parsing -/

/-- Bullet-line test shared by the markdown paths:
`trimmed.startsWith('- ') || trimmed.startsWith('* ')`. -/
def isBulletLine (line : JSStr) : Bool :=
  let t := trimJs line
  (str "- ").isPrefixOf t || (str "* ").isPrefixOf t

/-- `countMarkdownSectionItems`. -/
def countMarkdownSectionItems (body : JSStr) (sectionName : JSStr) : Nat :=
  match mdSectionFrom true sectionName body with
  | none => 0
  | some (_, content) => ((splitOnUnit 10 content).filter isBulletLine).length

/-- `parseMarkdown`. -/
def parseMarkdown (body : JSStr) : Option ParsedRelease :=
  match mdSectionFrom false (str "New Features") body with
  | none => none
  | some (raw, content) =>
    let features := (splitOnUnit 10 content).filterMap (fun line =>
      let trimmed := trimJs line
      if (str "- ").isPrefixOf trimmed || (str "* ").isPrefixOf trimmed then
        let feature := cleanFeature (trimmed.drop 2)
        if feature = [] then none else some feature
      else none)
    some { features
           bugFixes := countMarkdownSectionItems body (str "Bug Fixes")
           docs := countMarkdownSectionItems body (str "Documentation")
           chores := countMarkdownSectionItems body (str "Chores")
           raw }

/-! ### HTML parsing -/

/-- The lazy capture bounded by the lookahead `(?=<h2|$)` (case-insensitive). -/
def htmlCapture : JSStr → JSStr
  | [] => []
  | s@(u :: rest) => if litPrefix true (str "<h2") s then [] else u :: htmlCapture rest

/-- One attempt of `<h2[^>]*>${name}<\/h2>([\s\S]*?)(?=<h2|$)` (flag `i`)
anchored at the start of `s`; the raw match is returned with its original
casing via `take`. -/
def htmlSectionAt (name : JSStr) (s : JSStr) : Option (JSStr × JSStr) :=
  if litPrefix true (str "<h2") s then
    let r₁ := s.drop 3
    let attrs := r₁.takeWhile (fun w => !(w == 62))
    match r₁.drop attrs.length with
    | 62 :: r₂ =>
      if litPrefix true name r₂ then
        let r₃ := r₂.drop name.length
        if litPrefix true (str "</h2>") r₃ then
          let content := htmlCapture (r₃.drop 5)
          some (s.take (3 + attrs.length + 1 + name.length + 5 + content.length), content)
        else none
      else none
    | _ => none
  else none

/-- Regex scan for the HTML section pattern. -/
def htmlSectionFrom (name : JSStr) : JSStr → Option (JSStr × JSStr)
  | [] => htmlSectionAt name []
  | s@(_ :: rest) =>
    match htmlSectionAt name s with
    | some r => some r
    | none => htmlSectionFrom name rest

/-- The lazy capture of `<li[^>]*>([\s\S]*?)<\/li>/i`: shortest prefix whose
remainder starts with `</li>`; fails at end of input. -/
def liCapture : JSStr → Option JSStr
  | [] => none
  | s@(u :: rest) =>
    if litPrefix true (str "</li>") s then some []
    else (liCapture rest).map (fun c => u :: c)

/-- A match of `<li[^>]*>([\s\S]*?)<\/li>` (flag `i`) anchored at the start,
returning the capture and the total match length. -/
def liMatchAt (s : JSStr) : Option (JSStr × Nat) :=
  if litPrefix true (str "<li") s then
    let r₁ := s.drop 3
    let attrs := r₁.takeWhile (fun w => !(w == 62))
    match r₁.drop attrs.length with
    | 62 :: r₂ =>
      match liCapture r₂ with
      | some cap => some (cap, 3 + attrs.length + 1 + cap.length + 5)
      | none => none
    | _ => none
  else none

/-- The `while ((match = liRegex.exec(...)))` loop: all captures of the global
`<li...>...</li>` regex, scanning left to right. -/
def liCaptures : Nat → JSStr → List JSStr
  | 0, _ => []
  | _ + 1, [] => []
  | fuel + 1, s@(_ :: rest) =>
    match liMatchAt s with
    | some (cap, k) => cap :: liCaptures fuel (s.drop k)
    | none => liCaptures fuel rest

/-- Counts matches of the global `/<li[^>]*>/gi`, as `countHtmlSectionItems` does. -/
def countLiTags : Nat → JSStr → Nat
  | 0, _ => 0
  | _ + 1, [] => 0
  | fuel + 1, s@(_ :: rest) =>
    if litPrefix true (str "<li") s then
      let r₁ := s.drop 3
      let attrs := r₁.takeWhile (fun w => !(w == 62))
      match r₁.drop attrs.length with
      | 62 :: _ => 1 + countLiTags fuel (s.drop (3 + attrs.length + 1))
      | _ => countLiTags fuel rest
    else countLiTags fuel rest

/-- `countHtmlSectionItems`. -/
def countHtmlSectionItems (body : JSStr) (sectionName : JSStr) : Nat :=
  match htmlSectionFrom sectionName body with
  | none => 0
  | some (_, content) => countLiTags content.length content

/-- `parseHtml`. -/
def parseHtml (body : JSStr) : Option ParsedRelease :=
  match htmlSectionFrom (str "New Features") body with
  | none => none
  | some (raw, content) =>
    let features := (liCaptures content.length content).filterMap (fun item =>
      let feature := cleanFeature item
      if feature = [] then none else some feature)
    some { features
           bugFixes := countHtmlSectionItems body (str "Bug Fixes")
           docs := countHtmlSectionItems body (str "Documentation")
           chores := countHtmlSectionItems body (str "Chores")
           raw }

/-- `parseNewFeatures`: HTML first, markdown fallback, empty result otherwise. -/
def parseNewFeatures (releaseBody : JSStr) : ParsedRelease :=
  match parseHtml releaseBody with
  | some htmlResult =>
    if htmlResult.features ≠ [] then htmlResult
    else
      match parseMarkdown releaseBody with
      | some mdResult => mdResult
      | none => { features := [], bugFixes := 0, docs := 0, chores := 0, raw := [] }
  | none =>
    match parseMarkdown releaseBody with
    | some mdResult => mdResult
    | none => { features := [], bugFixes := 0, docs := 0, chores := 0, raw := [] }

/-! ## Version comparator (rss.ts) and pre-release classifier (github.ts) -/

/-- `Number(s)` on the strings a dotted-numeric version yields: optional-signed
decimal integers and the empty string; `none` models `NaN`. -/
def jsNumber (s : JSStr) : Option Int :=
  let t := trimJs s
  let digitsVal : JSStr → Option Int := fun ds =>
    if ds = [] then none
    else if ds.all isDigitUnit then some (ds.foldl (fun a u => a * 10 + ((u : Int) - 48)) 0)
    else none
  if t = [] then some 0
  else
    match t with
    | 43 :: r => digitsVal r
    | 45 :: r => (digitsVal r).map (fun n => -n)
    | r => digitsVal r

/-- JS `a !== b` on numbers (`NaN !== NaN` is true). -/
def jsNumNe (a b : Option Int) : Bool :=
  match a, b with
  | some i, some j => !(i == j)
  | _, _ => true

/-- JS `a - b` on numbers (`NaN` absorbs). -/
def jsNumSub (a b : Option Int) : Option Int :=
  match a, b with
  | some i, some j => some (i - j)
  | _, _ => none

/-- Tail of the `compareVersions` loop once the left component list is
exhausted: `aVal` reads as `0`. -/
def cmpPartsRight : List (Option Int) → Option Int
  | [] => some 0
  | b :: bs => if jsNumNe (some 0) b then jsNumSub (some 0) b else cmpPartsRight bs

/-- The `for` loop of `compareVersions`: first differing component decides;
missing trailing components read as `0` via `parts[i] ?? 0`. -/
def cmpParts : List (Option Int) → List (Option Int) → Option Int
  | [], bs => cmpPartsRight bs
  | a :: as', [] => if jsNumNe a (some 0) then jsNumSub a (some 0) else cmpParts as' []
  | a :: as', b :: bs => if jsNumNe a b then jsNumSub a b else cmpParts as' bs

/-- `compareVersions` (rss.ts). -/
def compareVersions (a b : JSStr) : Option Int :=
  cmpParts ((splitOnUnit 46 a).map jsNumber) ((splitOnUnit 46 b).map jsNumber)

/-- `includes`-style substring test. -/
def containsSub (needle : JSStr) : JSStr → Bool
  | [] => needle.isPrefixOf []
  | s@(_ :: rest) => needle.isPrefixOf s || containsSub needle rest

def PRE_RELEASE_PATTERNS : List JSStr := [str "alpha", str "beta", str "rc"]

/-- `isPreRelease` (github.ts): the lower-cased tag contains one of the markers. -/
def isPreRelease (tagName : JSStr) : Bool :=
  PRE_RELEASE_PATTERNS.any (fun pat => containsSub pat (lowerJs tagName))

/-! ## Helper lemmas -/

theorem containsSub_of_substring {needle hay : JSStr} (h : needle <:+: hay) :
    containsSub needle hay = true := by
  induction hay with
  | nil =>
    obtain ⟨s, t, e⟩ := h
    have hs : s = [] ∧ needle = [] ∧ t = [] := by
      constructor
      · cases s with
        | nil => rfl
        | cons a s' => simp at e
      · constructor
        · cases s <;> cases needle <;> simp_all
        · cases s <;> cases needle <;> cases t <;> simp_all
    obtain ⟨_, h2, _⟩ := hs
    subst h2
    decide
  | cons u rest ih =>
    obtain ⟨s, t, e⟩ := h
    rw [containsSub]
    cases s with
    | nil =>
      have hp : needle <+: u :: rest := ⟨t, by simpa using e⟩
      rw [Bool.or_eq_true]
      exact Or.inl (List.isPrefixOf_iff_prefix.mpr hp)
    | cons a s' =>
      have h' : needle <:+: rest := ⟨s', t, by simpa using congrArg List.tail e⟩
      rw [Bool.or_eq_true]
      exact Or.inr (ih h')

/-! ## Claim theorems -/

/-- C3: a string strictly longer than `MAX_FEATURE_LENGTH` truncates to exactly
that length ending in the three-character `"..."` marker; a string at or under
the limit is returned unchanged. -/
theorem truncateFeature_spec (f : JSStr) :
    (MAX_FEATURE_LENGTH < f.length →
      (truncateFeature f).length = MAX_FEATURE_LENGTH ∧ str "..." <:+ truncateFeature f) ∧
    (f.length ≤ MAX_FEATURE_LENGTH → truncateFeature f = f) := by
  constructor
  · intro h
    have hne : ¬ f.length ≤ MAX_FEATURE_LENGTH := by omega
    constructor
    · rw [truncateFeature, if_neg hne]
      have h3 : (str "...").length = 3 := by decide
      rw [List.length_append, List.length_take, h3]
      rw [MAX_FEATURE_LENGTH] at h ⊢
      omega
    · rw [truncateFeature, if_neg hne]
      exact List.suffix_append _ _
  · intro h
    rw [truncateFeature, if_pos h]

theorem truncateFeature_spec_witness :
    ((truncateFeature (List.replicate 101 97)).length = MAX_FEATURE_LENGTH ∧
      str "..." <:+ truncateFeature (List.replicate 101 97)) ∧
    truncateFeature (str "ok") = str "ok" :=
  ⟨(truncateFeature_spec (List.replicate 101 97)).1 (by decide),
   (truncateFeature_spec (str "ok")).2 (by decide)⟩

/-- C7: `compareVersions` orders dotted-numeric versions component-wise with
missing trailing components read as zero (`0.92.0 > 0.91.9`, `1.0 = 1.0.0`),
and `isPreRelease` classifies identifiers case-insensitively by marker
substrings (`alpha`, `beta`, `rc`), so any identifier containing `RC1` is a
pre-release. -/
theorem versionComparator_spec :
    (∃ k : Int, compareVersions (str "0.92.0") (str "0.91.9") = some k ∧ 0 < k) ∧
    compareVersions (str "1.0") (str "1.0.0") = some 0 ∧
    isPreRelease (str "rust-v0.93.0-alpha.1") = true ∧
    isPreRelease (str "rust-v0.92.0") = false ∧
    (∀ tag : JSStr, str "RC1" <:+: tag → isPreRelease tag = true) := by
  refine ⟨⟨1, by decide, by decide⟩, by decide, by decide, by decide, ?_⟩
  intro tag h
  have h1 : str "rc1" <:+: lowerJs tag := by
    have := h.map lowerUnit
    simpa [lowerJs] using this
  have h2 : str "rc" <:+: lowerJs tag :=
    List.IsInfix.trans (List.IsPrefix.isInfix ⟨[49], rfl⟩) h1
  rw [isPreRelease]
  rw [List.any_eq_true]
  exact ⟨str "rc", by decide, containsSub_of_substring h2⟩

theorem versionComparator_spec_witness : isPreRelease (str "xxRC1yy") = true :=
  versionComparator_spec.2.2.2.2 (str "xxRC1yy") ⟨str "xx", str "yy", by decide⟩

/-- C8: on the scenario-A body the extractor yields the two cleaned features
(PR reference markers removed), one bug-fix item, and a `raw` capture that
contains the literal `## New Features` heading. -/
theorem markdownScenarioA :
    parseNewFeatures
        (str "## New Features\n- Feature A (#1)\n- Feature B (#2,#3)\n\n## Bug Fixes\n- Fix X") =
      ⟨[str "Feature A", str "Feature B"], 1, 0, 0,
       str "## New Features\n- Feature A (#1)\n- Feature B (#2,#3)\n"⟩ ∧
    str "## New Features" <:+:
      (parseNewFeatures
        (str "## New Features\n- Feature A (#1)\n- Feature B (#2,#3)\n\n## Bug Fixes\n- Fix X")).raw := by
  constructor
  · decide
  · exact ⟨[], str "\n- Feature A (#1)\n- Feature B (#2,#3)\n", by decide⟩

/-- C9: the packer is a pure function — two calls of `formatTweets` on equal
arguments return equal threads. -/
theorem formatTweets_deterministic (v₁ v₂ u₁ u₂ : JSStr) (f₁ f₂ : List JSStr)
    (c₁ c₂ : SectionCounts) (hv : v₁ = v₂) (hf : f₁ = f₂) (hu : u₁ = u₂) (hc : c₁ = c₂) :
    formatTweets v₁ f₁ u₁ c₁ = formatTweets v₂ f₂ u₂ c₂ := by
  subst hv; subst hf; subst hu; subst hc; rfl

theorem formatTweets_deterministic_witness :
    formatTweets (str "1.2.3") [str "A"] (str "u") ⟨0, 0, 0⟩ =
      formatTweets (str "1.2.3") [str "A"] (str "u") ⟨0, 0, 0⟩ :=
  formatTweets_deterministic _ _ _ _ _ _ _ _ rfl rfl rfl rfl

/-- C10: `formatTweets` always returns at least one segment. -/
theorem formatTweets_nonempty (version releaseUrl : JSStr) (features : List JSStr)
    (counts : SectionCounts) : (formatTweets version features releaseUrl counts).tweets ≠ [] := by
  rw [formatTweets]
  dsimp only
  split
  · simp
  · simp [numberFrom]

/-- C4: the extractor tries HTML first and keeps that result whenever it has at
least one feature; it falls back to markdown exactly when HTML yields no
feature; and when neither dialect yields a primary section it returns the empty
`ParsedRelease` (no error is possible: the function is total). -/
theorem parseNewFeatures_detection (body : JSStr) :
    (∀ r : ParsedRelease, parseHtml body = some r → r.features ≠ [] →
      parseNewFeatures body = r) ∧
    (∀ m : ParsedRelease, parseMarkdown body = some m →
      (parseHtml body = none ∨ ∃ r, parseHtml body = some r ∧ r.features = []) →
      parseNewFeatures body = m) ∧
    (parseHtml body = none → parseMarkdown body = none →
      parseNewFeatures body = ⟨[], 0, 0, 0, []⟩) := by
  refine ⟨?_, ?_, ?_⟩
  · intro r hr hf
    rw [parseNewFeatures, hr]
    simp [hf]
  · intro m hm hcase
    rcases hcase with h | ⟨r, hr, hrf⟩
    · rw [parseNewFeatures, h, hm]
    · rw [parseNewFeatures, hr]
      simp [hrf, hm]
  · intro h1 h2
    rw [parseNewFeatures, h1, h2]

theorem parseNewFeatures_detection_witness :
    parseNewFeatures (str "<h2>New Features</h2><ul><li>Alpha</li></ul>") =
      ⟨[str "Alpha"], 0, 0, 0, str "<h2>New Features</h2><ul><li>Alpha</li></ul>"⟩ :=
  (parseNewFeatures_detection _).1 _ (by decide) (by decide)

/-- C5 (amended): with zero features and zero secondary counts, *provided the
composed header+footer rendering fits within `MAX_TWEET_LENGTH`*, the thread is
the single segment `buildSingleTweet`, which contains both the version and the
link; and extracting an empty body yields the empty `ParsedRelease`. -/
theorem formatTweets_empty_single (version releaseUrl : JSStr)
    (hfit : (buildSingleTweet version [] releaseUrl ⟨0, 0, 0⟩).length ≤ MAX_TWEET_LENGTH) :
    (formatTweets version [] releaseUrl ⟨0, 0, 0⟩).tweets =
      [buildSingleTweet version [] releaseUrl ⟨0, 0, 0⟩] ∧
    version <:+: buildSingleTweet version [] releaseUrl ⟨0, 0, 0⟩ ∧
    releaseUrl <:+: buildSingleTweet version [] releaseUrl ⟨0, 0, 0⟩ ∧
    parseNewFeatures [] = ⟨[], 0, 0, 0, []⟩ := by
  have halso : buildAlsoLine ⟨0, 0, 0⟩ = [] := by decide
  have hb : buildSingleTweet version [] releaseUrl ⟨0, 0, 0⟩ =
      str "🚀 Codex v" ++ version ++ str " released!" ++ str "\n\n" ++
        (str "Full release notes: " ++ releaseUrl) := by
    rw [buildSingleTweet]
    simp [halso, buildHeader, buildUrlLine]
  refine ⟨?_, ?_, ?_, by decide⟩
  · rw [formatTweets]
    simp only [List.map_nil]
    rw [if_pos hfit]
  · rw [hb]
    exact ⟨str "🚀 Codex v",
      str " released!" ++ str "\n\n" ++ (str "Full release notes: " ++ releaseUrl), by simp⟩
  · rw [hb]
    refine ⟨str "🚀 Codex v" ++ version ++ str " released!" ++ str "\n\n" ++
      str "Full release notes: ", [], by simp⟩

theorem formatTweets_empty_single_witness :
    (formatTweets (str "0.9.1") [] (str "https://ex") ⟨0, 0, 0⟩).tweets =
      [buildSingleTweet (str "0.9.1") [] (str "https://ex") ⟨0, 0, 0⟩] ∧
    str "0.9.1" <:+: buildSingleTweet (str "0.9.1") [] (str "https://ex") ⟨0, 0, 0⟩ ∧
    str "https://ex" <:+: buildSingleTweet (str "0.9.1") [] (str "https://ex") ⟨0, 0, 0⟩ ∧
    parseNewFeatures [] = ⟨[], 0, 0, 0, []⟩ :=
  formatTweets_empty_single (str "0.9.1") (str "https://ex") (by decide)

/-- C5 counterexample: with zero features, zero counts, and a 300-character
link, the thread has two segments, not one. -/
theorem formatTweets_empty_single_cex :
    (formatTweets (str "1.0.0") [] (List.replicate 300 97) ⟨0, 0, 0⟩).tweets.length = 2 := by
  decide


/-! ### Long-form category lemmas (towards C6) -/

theorem lf_bullets_snoc (l : List JSStr) (x : JSStr) :
    LongForm.bullets (l ++ [x]) = LongForm.bullets l ++ LongForm.bullet x := by
  simp [LongForm.bullets]

theorem lf_bullets_len_pos (opn : List JSStr) (h : opn ≠ []) :
    0 < (LongForm.bullets opn).length := by
  cases opn with
  | nil => exact absurd rfl h
  | cons y t =>
    have hb : LongForm.bullets (y :: t) = LongForm.bullet y ++ LongForm.bullets t := by
      simp [LongForm.bullets]
    have h3 : (str "\n• ").length = 3 := by decide
    rw [hb, List.length_append, LongForm.bullet, List.length_append, h3]
    omega

theorem lf_renderChunks_nil_iff (title : JSStr) (cl : List (List JSStr)) :
    LongForm.renderChunks title cl = [] ↔ cl = [] := by
  cases cl <;> simp [LongForm.renderChunks]

theorem lf_renderChunks_snoc (title : JSStr) (cl : List (List JSStr)) (c : List JSStr)
    (h : cl ≠ []) :
    LongForm.renderChunks title (cl ++ [c]) =
      LongForm.renderChunks title cl ++ [LongForm.renderCont title c] := by
  cases cl with
  | nil => exact absurd rfl h
  | cons hd t => simp [LongForm.renderChunks]

theorem lf_appendToLast_snoc (m a : JSStr) (l : List JSStr) :
    LongForm.appendToLast m (l ++ [a]) = l ++ [a ++ m] := by
  induction l with
  | nil => rfl
  | cons h t ih =>
    cases t with
    | nil => rfl
    | cons u t' =>
      have e : (h :: u :: t') ++ [a] = h :: ((u :: t') ++ [a]) := rfl
      have e2 : (u :: t') ++ [a] = u :: (t' ++ [a]) := rfl
      rw [e, e2, LongForm.appendToLast, ← e2, ih]
      rfl

theorem lf_renderFirst_ne_base (title : JSStr) (opn : List JSStr) (h : opn ≠ []) :
    LongForm.renderFirst title opn ≠ title ++ str ":" := by
  intro e
  have hl := congrArg List.length e
  rw [LongForm.renderFirst] at hl
  simp only [List.length_append] at hl
  have hp := lf_bullets_len_pos opn h
  omega

theorem lf_renderFirst_ne_cont (title : JSStr) (opn : List JSStr) :
    LongForm.renderFirst title opn ≠ title ++ str " (cont.):" := by
  intro e
  rw [LongForm.renderFirst, List.append_assoc] at e
  have e' := List.append_cancel_left e
  rw [show str ":" ++ LongForm.bullets opn = 58 :: LongForm.bullets opn from rfl,
    show str " (cont.):" = 32 :: str "(cont.):" from rfl] at e'
  simp at e'

theorem lf_renderCont_ne_base (title : JSStr) (opn : List JSStr) :
    LongForm.renderCont title opn ≠ title ++ str ":" := by
  intro e
  rw [LongForm.renderCont, List.append_assoc] at e
  have e' := List.append_cancel_left e
  rw [show str " (cont.):" ++ LongForm.bullets opn =
        32 :: (str "(cont.):" ++ LongForm.bullets opn) from rfl,
    show str ":" = 58 :: ([] : JSStr) from rfl] at e'
  simp at e'

theorem lf_renderCont_ne_cont (title : JSStr) (opn : List JSStr) (h : opn ≠ []) :
    LongForm.renderCont title opn ≠ title ++ str " (cont.):" := by
  intro e
  have hl := congrArg List.length e
  rw [LongForm.renderCont] at hl
  simp only [List.length_append] at hl
  have hp := lf_bullets_len_pos opn h
  omega

/-- Loop invariant of `splitGo`: starting from closed chunks `cl` and an open
chunk `opn`, the loop renders a chunk decomposition of some prefix of the items,
with an exact `K more...` marker on the last segment iff `K > 0` items were
dropped. -/
theorem lf_splitGo_spec (title : JSStr) (pending : List JSStr) :
    ∀ (cl : List (List JSStr)) (opn : List JSStr), (cl ≠ [] → opn ≠ []) →
    ∃ (chunks : List (List JSStr)) (dropped : List JSStr),
      chunks.flatten ++ dropped = cl.flatten ++ opn ++ pending ∧
      LongForm.splitGo title
          (if cl = [] then LongForm.renderFirst title opn else LongForm.renderCont title opn)
          opn.length (LongForm.renderChunks title cl) pending =
        (if dropped = [] then LongForm.renderChunks title chunks
         else LongForm.appendToLast (LongForm.moreMarker dropped.length)
           (LongForm.renderChunks title chunks)) := by
  induction pending with
  | nil =>
    intro cl opn hclopn
    by_cases hcl : cl = []
    · subst hcl
      by_cases hopn : opn = []
      · subst hopn
        refine ⟨[], [], by simp, ?_⟩
        simp [LongForm.splitGo, LongForm.renderChunks, LongForm.renderFirst, LongForm.bullets]
      · refine ⟨[opn], [], by simp, ?_⟩
        simp only [if_pos rfl, LongForm.splitGo, LongForm.renderChunks, List.map_nil]
        rw [if_pos ⟨lf_renderFirst_ne_base title opn hopn, lf_renderFirst_ne_cont title opn⟩]
        simp
    · have hopn := hclopn hcl
      refine ⟨cl ++ [opn], [], by simp, ?_⟩
      rw [if_neg hcl, if_pos rfl]
      simp only [LongForm.splitGo]
      rw [if_pos ⟨lf_renderCont_ne_base title opn, lf_renderCont_ne_cont title opn hopn⟩]
      rw [lf_renderChunks_snoc title cl opn hcl]
  | cons x rest ih =>
    intro cl opn hclopn
    simp only [LongForm.splitGo]
    have absorb : ∃ (chunks : List (List JSStr)) (dropped : List JSStr),
        chunks.flatten ++ dropped = cl.flatten ++ opn ++ x :: rest ∧
        LongForm.splitGo title
            ((if cl = [] then LongForm.renderFirst title opn
              else LongForm.renderCont title opn) ++ LongForm.bullet x)
            (opn.length + 1) (LongForm.renderChunks title cl) rest =
          (if dropped = [] then LongForm.renderChunks title chunks
           else LongForm.appendToLast (LongForm.moreMarker dropped.length)
             (LongForm.renderChunks title chunks)) := by
      obtain ⟨chunks, dropped, hflat, hres⟩ := ih cl (opn ++ [x]) (fun _ => by simp)
      have hcur : (if cl = [] then LongForm.renderFirst title (opn ++ [x])
            else LongForm.renderCont title (opn ++ [x])) =
          (if cl = [] then LongForm.renderFirst title opn
            else LongForm.renderCont title opn) ++ LongForm.bullet x := by
        by_cases hc : cl = [] <;>
          simp [hc, LongForm.renderFirst, LongForm.renderCont, lf_bullets_snoc,
            List.append_assoc]
      rw [hcur] at hres
      rw [show (opn ++ [x]).length = opn.length + 1 by simp] at hres
      refine ⟨chunks, dropped, ?_, hres⟩
      rw [hflat]
      simp [List.append_assoc]
    by_cases hfit : ((if cl = [] then LongForm.renderFirst title opn
          else LongForm.renderCont title opn) ++ LongForm.bullet x).length ≤
        LongForm.TARGET_TWEET_LENGTH
    · rw [if_pos hfit]
      exact absorb
    · rw [if_neg hfit]
      by_cases hn : opn.length = 0
      · rw [if_pos hn]
        exact absorb
      · rw [if_neg hn]
        by_cases h3 : 0 < rest.length ∧ 1 ≤ (LongForm.renderChunks title cl).length
        · -- elision branch: exact marker `rest.length + 1` on the closing segment
          rw [if_pos h3]
          have hcl : cl ≠ [] := by
            intro hc
            rw [hc] at h3
            simp [LongForm.renderChunks] at h3
          refine ⟨cl ++ [opn], x :: rest, by simp [List.append_assoc], ?_⟩
          rw [if_neg hcl, if_neg (by simp : ¬(x :: rest = ([] : List JSStr)))]
          rw [lf_renderChunks_snoc title cl opn hcl, lf_appendToLast_snoc]
          simp
        · -- flush the open chunk and start a continuation chunk holding `x`
          rw [if_neg h3]
          obtain ⟨chunks, dropped, hflat, hres⟩ := ih (cl ++ [opn]) [x] (fun _ => by simp)
          have hacc : LongForm.renderChunks title (cl ++ [opn]) =
              LongForm.renderChunks title cl ++
                [if cl = [] then LongForm.renderFirst title opn
                 else LongForm.renderCont title opn] := by
            by_cases hc : cl = []
            · subst hc
              simp [LongForm.renderChunks]
            · rw [if_neg hc, lf_renderChunks_snoc title cl opn hc]
          have hcur : (if cl ++ [opn] = [] then LongForm.renderFirst title [x]
                else LongForm.renderCont title [x]) =
              title ++ str " (cont.):" ++ LongForm.bullet x := by
            rw [if_neg (by simp)]
            simp [LongForm.renderCont, LongForm.bullets]
          rw [hacc, hcur, show List.length [x] = 1 by simp] at hres
          refine ⟨chunks, dropped, ?_, hres⟩
          rw [hflat]
          simp [List.append_assoc]

/-- C6: elision markers state exact counts. In the preview path,
`buildCategorySection` displays the first `MAX_PREVIEW_ITEMS` items and the
marker count is exactly `items.length` minus the number displayed (and no
marker appears when nothing is elided). In the split path,
`splitCategoryIntoTweets` renders a chunk decomposition `chunks` of a prefix of
`items` (the displayed items are exactly `chunks.flatten`), and elided items
are accounted by a marker on the final segment only, whose count equals
`items.length - chunks.flatten.length` exactly. -/
theorem categoryElision_exact (title : JSStr) (items : List JSStr) :
    (LongForm.MAX_PREVIEW_ITEMS < items.length →
      LongForm.buildCategorySection title items true =
        LongForm.renderFirst title (items.take LongForm.MAX_PREVIEW_ITEMS) ++
          LongForm.moreMarker
            (items.length - (items.take LongForm.MAX_PREVIEW_ITEMS).length)) ∧
    (items ≠ [] → items.length ≤ LongForm.MAX_PREVIEW_ITEMS →
      LongForm.buildCategorySection title items true = LongForm.renderFirst title items) ∧
    (items ≠ [] →
      ∃ (chunks : List (List JSStr)) (dropped : List JSStr),
        chunks.flatten ++ dropped = items ∧
        dropped.length = items.length - chunks.flatten.length ∧
        LongForm.splitCategoryIntoTweets title items =
          (if dropped = [] then LongForm.renderChunks title chunks
           else LongForm.appendToLast (LongForm.moreMarker dropped.length)
             (LongForm.renderChunks title chunks))) := by
  have hmarker : LongForm.MAX_PREVIEW_ITEMS < items.length →
      LongForm.buildCategorySection title items true =
        LongForm.renderFirst title (items.take LongForm.MAX_PREVIEW_ITEMS) ++
          LongForm.moreMarker
            (items.length - (items.take LongForm.MAX_PREVIEW_ITEMS).length) := by
    intro h
    have hne : items ≠ [] := by
      intro he
      rw [he] at h
      simp [LongForm.MAX_PREVIEW_ITEMS] at h
    have hpos : 0 < items.length - (items.take LongForm.MAX_PREVIEW_ITEMS).length := by
      rw [List.length_take]
      omega
    simp only [LongForm.buildCategorySection, if_neg hne, if_pos hpos, if_true]
    rfl
  have hnomarker : items ≠ [] → items.length ≤ LongForm.MAX_PREVIEW_ITEMS →
      LongForm.buildCategorySection title items true = LongForm.renderFirst title items := by
    intro hne h
    have htake : items.take LongForm.MAX_PREVIEW_ITEMS = items := List.take_of_length_le h
    have hz : ¬ 0 < items.length - (items.take LongForm.MAX_PREVIEW_ITEMS).length := by
      rw [List.length_take]
      omega
    simp only [LongForm.buildCategorySection, if_neg hne, if_true, htake]
    rw [if_neg (by omega : ¬ 0 < items.length - items.length)]
    rfl
  refine ⟨hmarker, hnomarker, ?_⟩
  intro hne
  rw [LongForm.splitCategoryIntoTweets]
  rw [if_neg hne]
  by_cases hfit : (LongForm.buildCategorySection title items true).length ≤
      LongForm.TARGET_TWEET_LENGTH
  · rw [if_pos hfit]
    by_cases hlen : items.length ≤ LongForm.MAX_PREVIEW_ITEMS
    · refine ⟨[items], [], by simp, by simp, ?_⟩
      rw [if_pos rfl, hnomarker hne hlen]
      rfl
    · push_neg at hlen
      have hdropne : items.drop LongForm.MAX_PREVIEW_ITEMS ≠ [] := by
        intro he
        have := congrArg List.length he
        simp at this
        omega
      refine ⟨[items.take LongForm.MAX_PREVIEW_ITEMS], items.drop LongForm.MAX_PREVIEW_ITEMS,
        by simp, ?_, ?_⟩
      · simp
        omega
      · rw [if_neg hdropne, hmarker hlen]
        have hd : (items.drop LongForm.MAX_PREVIEW_ITEMS).length =
            items.length - (items.take LongForm.MAX_PREVIEW_ITEMS).length := by
          simp
          omega
        rw [hd]
        rfl
  · rw [if_neg hfit]
    have hstart := lf_splitGo_spec title items [] [] (fun h => absurd rfl h)
    have hcur : (if ([] : List (List JSStr)) = [] then LongForm.renderFirst title []
          else LongForm.renderCont title []) = title ++ str ":" := by
      rw [if_pos rfl]
      simp [LongForm.renderFirst, LongForm.bullets]
    rw [hcur] at hstart
    obtain ⟨chunks, dropped, hflat, hres⟩ := hstart
    have hflat' : chunks.flatten ++ dropped = items := by simpa using hflat
    have hl := congrArg List.length hflat'
    rw [List.length_append] at hl
    exact ⟨chunks, dropped, hflat', by omega, hres⟩

theorem categoryElision_exact_witness :
    LongForm.buildCategorySection (str "T")
        [str "a", str "b", str "c", str "d", str "e", str "f"] true =
      LongForm.renderFirst (str "T") [str "a", str "b", str "c", str "d"] ++
        LongForm.moreMarker 2 := by
  have h := (categoryElision_exact (str "T")
    [str "a", str "b", str "c", str "d", str "e", str "f"]).1 (by decide)
  exact h.trans (by decide)

/-! ### Packing-loop lemmas (towards C1 and C2) -/

theorem mem_joinLines_substring {x : JSStr} : ∀ {fs : List JSStr}, x ∈ fs → x <:+: joinLines fs
  | [f], h => by
    rw [List.mem_singleton] at h
    subst h
    exact ⟨str "• ", [], by simp [joinLines, lineOf]⟩
  | f :: g :: rest, h => by
    rcases List.mem_cons.mp h with h1 | h2
    · subst h1
      exact ⟨str "• ", str "\n" ++ joinLines (g :: rest),
        by simp [joinLines, lineOf, List.append_assoc]⟩
    · have hsuf : joinLines (g :: rest) <:+ joinLines (f :: g :: rest) :=
        ⟨lineOf f ++ str "\n", by simp [joinLines, List.append_assoc]⟩
      exact (mem_joinLines_substring h2).trans hsuf.isInfix

theorem greedyFirst_eq_append (fc : JSStr) :
    ∀ (rest acc : List JSStr), ∃ p, greedyFirst fc acc rest = acc ++ p ∧ p <+: rest
  | [], acc => ⟨[], by simp [greedyFirst], List.nil_prefix⟩
  | f :: rest, acc => by
    simp only [greedyFirst]
    split
    · obtain ⟨p, hp, hpre⟩ := greedyFirst_eq_append fc rest (acc ++ [f])
      obtain ⟨t, ht⟩ := hpre
      exact ⟨f :: p, by rw [hp]; simp, ⟨t, by simp [ht]⟩⟩
    · exact ⟨[], by simp, List.nil_prefix⟩

theorem greedyMiddle_eq_append :
    ∀ (rest acc : List JSStr), ∃ p, greedyMiddle acc rest = acc ++ p ∧ p <+: rest
  | [], acc => ⟨[], by simp [greedyMiddle], List.nil_prefix⟩
  | f :: rest, acc => by
    simp only [greedyMiddle]
    split
    · obtain ⟨p, hp, hpre⟩ := greedyMiddle_eq_append rest (acc ++ [f])
      obtain ⟨t, ht⟩ := hpre
      exact ⟨f :: p, by rw [hp]; simp, ⟨t, by simp [ht]⟩⟩
    · exact ⟨[], by simp, List.nil_prefix⟩

/-- Every remaining feature lands, as a substring, in some content emitted by
the middle-tweet loop (given enough fuel). -/
theorem packMiddle_covers (footer : JSStr) :
    ∀ (fuel : Nat) (rem : List JSStr), rem.length ≤ fuel →
      ∀ x ∈ rem, ∃ c ∈ (packMiddle footer fuel rem).1, x <:+: c := by
  intro fuel
  induction fuel with
  | zero =>
    intro rem hle x hx
    have : rem = [] := List.eq_nil_of_length_eq_zero (by omega)
    subst this
    cases hx
  | succ fuel ih =>
    intro rem hle x hx
    match rem, hx with
    | y :: rest, hx =>
      simp only [packMiddle]
      split
      · -- the last tweet absorbs all remaining features
        refine ⟨joinLines (y :: rest) ++ str "\n\n" ++ footer, by simp, ?_⟩
        exact (mem_joinLines_substring hx).trans
          ((List.prefix_append _ _).trans (List.prefix_append _ _)).isInfix
      · split
      -- the split introduces the chunk = [] and chunk ≠ [] cases
        · rename_i hchunk
          rcases List.mem_cons.mp hx with h1 | h2
          · subst h1
            exact ⟨lineOf x, by simp, ⟨str "• ", [], by simp [lineOf]⟩⟩
          · obtain ⟨c, hc, hinf⟩ := ih rest (by simpa using Nat.le_of_succ_le_succ hle) x h2
            exact ⟨c, by simp [hc], hinf⟩
        · rename_i hchunk
          obtain ⟨p, hp, hpre⟩ := greedyMiddle_eq_append (y :: rest) []
          rw [List.nil_append] at hp
          obtain ⟨tl, htl⟩ := hpre
          have hdrop : (y :: rest).drop (greedyMiddle [] (y :: rest)).length = tl := by
            rw [hp, ← htl]
            exact List.drop_left p tl
          have hxsplit : x ∈ p ++ tl := by rw [htl]; exact hx
          rcases List.mem_append.mp hxsplit with h1 | h2
          · exact ⟨joinLines (greedyMiddle [] (y :: rest)), by simp,
              by rw [hp]; exact mem_joinLines_substring h1⟩
          · have hlen : tl.length ≤ fuel := by
              have hplen : 1 ≤ p.length := by
                cases p with
                | nil => rw [hp] at hchunk; exact absurd rfl hchunk
                | cons a b => simp
              have := congrArg List.length htl
              simp [List.length_append] at this hle
              omega
            obtain ⟨c, hc, hinf⟩ := ih tl hlen x h2
            rw [hdrop]
            exact ⟨c, by simp [hc], hinf⟩

theorem numberFrom_mem (total : Nat) :
    ∀ (cs : List JSStr) (i : Nat) (c : JSStr), c ∈ cs →
      ∃ t ∈ numberFrom total i cs, c <+: t
  | d :: cs, i, c, h => by
    rcases List.mem_cons.mp h with h1 | h2
    · subst h1
      exact ⟨c ++ suffixFor i total, by simp [numberFrom], List.prefix_append _ _⟩
    · obtain ⟨t, ht, hpre⟩ := numberFrom_mem total cs (i + 1) c h2
      exact ⟨t, by simp [numberFrom, ht], hpre⟩

/-- C2: every input feature's truncated form appears as a substring of some
segment of the returned thread — no feature is ever dropped. -/
theorem formatTweets_no_feature_dropped (version releaseUrl : JSStr) (features : List JSStr)
    (counts : SectionCounts) (f : JSStr) (hf : f ∈ features) :
    ∃ t ∈ (formatTweets version features releaseUrl counts).tweets,
      truncateFeature f <:+: t := by
  have hx : truncateFeature f ∈ features.map truncateFeature :=
    List.mem_map_of_mem truncateFeature hf
  rw [formatTweets]
  by_cases hsingle : (buildSingleTweet version (features.map truncateFeature) releaseUrl
      counts).length ≤ MAX_TWEET_LENGTH
  · simp only [if_pos hsingle]
    have hne : features.map truncateFeature ≠ [] := by
      intro h0
      rw [h0] at hx
      cases hx
    have hshape : ∃ tail,
        buildSingleTweet version (features.map truncateFeature) releaseUrl counts =
          (buildHeader version ++ str "\n\nNew Features:\n") ++
            joinLines (features.map truncateFeature) ++ tail := by
      rw [buildSingleTweet]
      simp only [if_neg hne]
      by_cases halso : buildAlsoLine counts ≠ []
      · refine ⟨str "\n\n" ++ buildAlsoLine counts ++ str "\n\n" ++ buildUrlLine releaseUrl, ?_⟩
        rw [if_pos halso]
        simp [List.append_assoc]
      · refine ⟨str "\n\n" ++ buildUrlLine releaseUrl, ?_⟩
        rw [if_neg halso]
        simp [List.append_assoc]
    obtain ⟨tail, htail⟩ := hshape
    obtain ⟨s, t, e⟩ := mem_joinLines_substring hx
    refine ⟨_, List.mem_singleton_self _, ?_⟩
    rw [htail]
    exact ⟨(buildHeader version ++ str "\n\nNew Features:\n") ++ s, t ++ tail,
      by rw [← e]; simp [List.append_assoc]⟩
  · simp only [if_neg hsingle]
    obtain ⟨p, hp, hpre⟩ :=
      greedyFirst_eq_append (buildHeader version ++ str "\n\nNew Features:")
        (features.map truncateFeature) []
    rw [List.nil_append] at hp
    obtain ⟨t0, ht0⟩ := hpre
    rw [hp]
    have hdrop : (features.map truncateFeature).drop p.length = t0 := by
      rw [← ht0]
      exact List.drop_left p t0
    rw [hdrop]
    have hx' : truncateFeature f ∈ p ++ t0 := by rw [ht0]; exact hx
    rcases List.mem_append.mp hx' with hxp | hxt
    · have hpne : p ≠ [] := by
        intro h0
        rw [h0] at hxp
        cases hxp
      rw [if_pos hpne]
      obtain ⟨s, t, e⟩ := mem_joinLines_substring hxp
      have hinf : truncateFeature f <:+:
          (buildHeader version ++ str "\n\nNew Features:") ++ str "\n" ++ joinLines p :=
        ⟨((buildHeader version ++ str "\n\nNew Features:") ++ str "\n") ++ s, t,
          by rw [← e]; simp [List.append_assoc]⟩
      obtain ⟨tt, htt, htpre⟩ := numberFrom_mem _ _ 0 _ (List.mem_cons_self
        ((buildHeader version ++ str "\n\nNew Features:") ++ str "\n" ++ joinLines p)
        ((packMiddle (lastFooterOf releaseUrl counts) t0.length t0).1 ++
          (if (packMiddle (lastFooterOf releaseUrl counts) t0.length t0).2 then []
           else [lastFooterOf releaseUrl counts])))
      exact ⟨tt, htt, hinf.trans htpre.isInfix⟩
    · obtain ⟨cmid, hcmem, hcinf⟩ := packMiddle_covers (lastFooterOf releaseUrl counts)
        t0.length t0 le_rfl _ hxt
      have hcm : cmid ∈
          (if p ≠ [] then
            (buildHeader version ++ str "\n\nNew Features:") ++ str "\n" ++ joinLines p
           else buildHeader version ++ str "\n\nNew Features:") ::
          ((packMiddle (lastFooterOf releaseUrl counts) t0.length t0).1 ++
            (if (packMiddle (lastFooterOf releaseUrl counts) t0.length t0).2 then []
             else [lastFooterOf releaseUrl counts])) :=
        List.mem_cons_of_mem _ (List.mem_append_left _ hcmem)
      obtain ⟨tt, htt, htpre⟩ := numberFrom_mem _ _ 0 _ hcm
      exact ⟨tt, htt, hcinf.trans htpre.isInfix⟩

theorem formatTweets_no_feature_dropped_witness :
    ((formatTweets (str "0.92.0") (List.replicate 20 (List.replicate 40 97))
        (str "https://example.com/rel") ⟨0, 0, 0⟩).tweets.any
      (fun t => containsSub (truncateFeature (List.replicate 40 97)) t)) = true := by
  obtain ⟨t, ht, hinf⟩ := formatTweets_no_feature_dropped (str "0.92.0")
    (str "https://example.com/rel") (List.replicate 20 (List.replicate 40 97)) ⟨0, 0, 0⟩
    (List.replicate 40 97) (by decide)
  exact List.any_eq_true.mpr ⟨t, ht, containsSub_of_substring hinf⟩

theorem truncateFeature_le (f : JSStr) : (truncateFeature f).length ≤ MAX_FEATURE_LENGTH := by
  by_cases h : f.length ≤ MAX_FEATURE_LENGTH
  · rw [truncateFeature, if_pos h]
    exact h
  · rw [truncateFeature, if_neg h]
    rw [List.length_append, List.length_take]
    have h3 : (str "...").length = 3 := by decide
    rw [h3, MAX_FEATURE_LENGTH]
    omega

/-- The live numbering suffix ` (${i+1}/${total})` stays within the 8-character
placeholder as long as the thread has at most 99 segments. -/
theorem suffixFor_len {i total : Nat} (h1 : i < total) (h2 : total ≤ 99) :
    (suffixFor i total).length ≤ numberingSuffix.length := by
  have hr : ∀ n, n < 100 → (natStr n).length ≤ 2 := by decide
  have ha := hr (i + 1) (by omega)
  have hb := hr total (by omega)
  have e0 : numberingSuffix.length = 8 := by decide
  have e1 : (str " (").length = 2 := by decide
  have e2 : (str "/").length = 1 := by decide
  have e3 : (str ")").length = 1 := by decide
  rw [suffixFor, e0]
  simp only [List.length_append]
  rw [e1, e2, e3]
  omega

theorem joinLines_snoc (f : JSStr) :
    ∀ acc : List JSStr, joinLines (acc ++ [f]) =
      (if acc = [] then lineOf f else joinLines acc ++ str "\n" ++ lineOf f)
  | [] => by simp [joinLines]
  | [g] => by simp [joinLines]
  | g :: h :: acc => by
    have ih := joinLines_snoc f (h :: acc)
    rw [if_neg (by simp)] at ih
    have e : (g :: h :: acc) ++ [f] = g :: ((h :: acc) ++ [f]) := rfl
    rw [e]
    have e2 : (h :: acc) ++ [f] = h :: (acc ++ [f]) := rfl
    rw [e2, joinLines, ← e2, ih, joinLines]
    simp [List.append_assoc]

theorem firstTestContent_len (fc : JSStr) (acc : List JSStr) (f : JSStr) :
    (firstTestContent fc acc f).length =
      (fc ++ str "\n" ++ joinLines (acc ++ [f])).length + numberingSuffix.length := by
  rw [firstTestContent, joinLines_snoc]
  by_cases h : acc = []
  · subst h
    simp [List.length_append]
    omega
  · rw [if_neg h, if_pos h]
    simp [List.length_append]
    omega

theorem middleTestContent_len (acc : List JSStr) (f : JSStr) :
    (middleTestContent acc f).length =
      (joinLines (acc ++ [f])).length + numberingSuffix.length := by
  rw [middleTestContent, joinLines_snoc]
  by_cases h : acc = []
  · subst h
    simp [List.length_append]
  · rw [if_neg h, if_pos h]
    simp [List.length_append]
    omega

theorem greedyFirst_bound (fc : JSStr) :
    ∀ (rest acc : List JSStr),
      (acc = [] ∨ (fc ++ str "\n" ++ joinLines acc).length + numberingSuffix.length ≤
        MAX_TWEET_LENGTH) →
      (greedyFirst fc acc rest = [] ∨
        (fc ++ str "\n" ++ joinLines (greedyFirst fc acc rest)).length +
          numberingSuffix.length ≤ MAX_TWEET_LENGTH)
  | [], acc, hinv => by
    rw [greedyFirst]
    exact hinv
  | f :: rest, acc, hinv => by
    simp only [greedyFirst]
    split
    · rename_i htest
      refine greedyFirst_bound fc rest (acc ++ [f]) (Or.inr ?_)
      rw [← firstTestContent_len]
      exact htest
    · exact hinv

theorem greedyMiddle_bound :
    ∀ (rest acc : List JSStr),
      (acc = [] ∨ (joinLines acc).length + numberingSuffix.length ≤ MAX_TWEET_LENGTH) →
      (greedyMiddle acc rest = [] ∨
        (joinLines (greedyMiddle acc rest)).length + numberingSuffix.length ≤ MAX_TWEET_LENGTH)
  | [], acc, hinv => by
    rw [greedyMiddle]
    exact hinv
  | f :: rest, acc, hinv => by
    simp only [greedyMiddle]
    split
    · rename_i htest
      refine greedyMiddle_bound rest (acc ++ [f]) (Or.inr ?_)
      rw [← middleTestContent_len]
      exact htest
    · exact hinv

/-- Every content emitted by the middle-tweet loop leaves room for the
8-character numbering suffix (features are already truncated). -/
theorem packMiddle_bound (footer : JSStr) :
    ∀ (fuel : Nat) (rem : List JSStr), (∀ x ∈ rem, x.length ≤ MAX_FEATURE_LENGTH) →
      ∀ t ∈ (packMiddle footer fuel rem).1,
        t.length + numberingSuffix.length ≤ MAX_TWEET_LENGTH := by
  intro fuel
  induction fuel with
  | zero =>
    intro rem hitems t ht
    cases rem with
    | nil => cases ht
    | cons y rest => cases ht
  | succ fuel ih =>
    intro rem hitems t ht
    match rem, ht with
    | y :: rest, ht =>
      simp only [packMiddle] at ht
      split at ht
      · rename_i hlast
        rw [List.mem_singleton] at ht
        subst ht
        have : (joinLines (y :: rest) ++ str "\n\n" ++ footer ++ numberingSuffix).length =
            (joinLines (y :: rest) ++ str "\n\n" ++ footer).length + numberingSuffix.length := by
          simp [List.length_append]
          omega
        omega
      · split at ht
        · rename_i hchunk
          rcases List.mem_cons.mp ht with h1 | h2
          · subst h1
            have hy : y.length ≤ MAX_FEATURE_LENGTH := hitems y (by simp)
            have h2l : (lineOf y).length = 2 + y.length := by
              rw [lineOf, List.length_append]
              have : (str "• ").length = 2 := by decide
              omega
            have h8 : numberingSuffix.length = 8 := by decide
            rw [h2l, h8, MAX_TWEET_LENGTH]
            rw [MAX_FEATURE_LENGTH] at hy
            omega
          · exact ih rest (fun x hx => hitems x (by simp [hx])) t h2
        · rename_i hchunk
          rcases List.mem_cons.mp ht with h1 | h2
          · subst h1
            rcases greedyMiddle_bound (y :: rest) [] (Or.inl rfl) with hnil | hbound
            · exact absurd hnil hchunk
            · exact hbound
          · exact ih ((y :: rest).drop (greedyMiddle [] (y :: rest)).length)
              (fun x hx => hitems x (List.mem_of_mem_drop hx)) t h2

/-- The middle-tweet loop emits at most one content per remaining feature. -/
theorem packMiddle_count (footer : JSStr) :
    ∀ (fuel : Nat) (rem : List JSStr), (packMiddle footer fuel rem).1.length ≤ rem.length := by
  intro fuel
  induction fuel with
  | zero =>
    intro rem
    cases rem with
    | nil => simp [packMiddle]
    | cons y rest => simp [packMiddle]
  | succ fuel ih =>
    intro rem
    match rem with
    | [] => simp [packMiddle]
    | y :: rest =>
      rw [packMiddle]
      dsimp only
      split
      · simp
      · split
        · rename_i hchunk
          have := ih rest
          simp only [List.length_cons]
          omega
        · rename_i hchunk
          obtain ⟨p, hp, hpre⟩ := greedyMiddle_eq_append (y :: rest) []
          rw [List.nil_append] at hp
          have hplen : 1 ≤ p.length := by
            cases p with
            | nil => rw [hp] at hchunk; exact absurd rfl hchunk
            | cons a b => simp
          have hdlen := ih ((y :: rest).drop (greedyMiddle [] (y :: rest)).length)
          have hdrop : ((y :: rest).drop (greedyMiddle [] (y :: rest)).length).length =
              (y :: rest).length - (greedyMiddle [] (y :: rest)).length := by
            rw [List.length_drop]
          rw [hp] at hdlen hdrop ⊢
          simp only [List.length_cons] at hdrop ⊢
          omega

theorem numberFrom_le (total : Nat) (hN : total ≤ 99) :
    ∀ (cs : List JSStr) (i : Nat),
      (∀ c ∈ cs, c.length + numberingSuffix.length ≤ MAX_TWEET_LENGTH) →
      i + cs.length ≤ total →
      ∀ t ∈ numberFrom total i cs, t.length ≤ MAX_TWEET_LENGTH
  | [], i, _, _, t, ht => by cases ht
  | c :: cs, i, hbound, hle, t, ht => by
    rw [numberFrom] at ht
    rcases List.mem_cons.mp ht with h1 | h2
    · subst h1
      have hi : i < total := by
        simp only [List.length_cons] at hle
        omega
      have hs := suffixFor_len hi hN
      have hc := hbound c (by simp)
      rw [List.length_append]
      omega
    · refine numberFrom_le total hN cs (i + 1) (fun d hd => hbound d (by simp [hd])) ?_ t h2
      simp only [List.length_cons] at hle
      omega

/-- C1 (amended): every segment of the thread stays within `MAX_TWEET_LENGTH`,
provided (i) the first-tweet header content fits with the reserved numbering
width, (ii) the composed footer fits with the reserved numbering width, and
(iii) there are at most 97 features, so the thread has at most 99 segments and
the live numbering suffix ` (i/N)` stays within its 8-character placeholder. -/
theorem formatTweets_budget (version releaseUrl : JSStr) (features : List JSStr)
    (counts : SectionCounts)
    (hHeader : (buildHeader version ++ str "\n\nNew Features:").length +
      numberingSuffix.length ≤ MAX_TWEET_LENGTH)
    (hFooter : (lastFooterOf releaseUrl counts).length + numberingSuffix.length ≤
      MAX_TWEET_LENGTH)
    (hCount : features.length ≤ 97) :
    ∀ t ∈ (formatTweets version features releaseUrl counts).tweets,
      t.length ≤ MAX_TWEET_LENGTH := by
  rw [formatTweets]
  by_cases hsingle : (buildSingleTweet version (features.map truncateFeature) releaseUrl
      counts).length ≤ MAX_TWEET_LENGTH
  · simp only [if_pos hsingle]
    intro t ht
    rw [List.mem_singleton] at ht
    subst ht
    exact hsingle
  · simp only [if_neg hsingle]
    obtain ⟨p, hp, hpre⟩ :=
      greedyFirst_eq_append (buildHeader version ++ str "\n\nNew Features:")
        (features.map truncateFeature) []
    rw [List.nil_append] at hp
    obtain ⟨t0, ht0⟩ := hpre
    rw [hp]
    have hdrop : (features.map truncateFeature).drop p.length = t0 := by
      rw [← ht0]
      exact List.drop_left p t0
    rw [hdrop]
    set FC := buildHeader version ++ str "\n\nNew Features:" with hFC
    set PM := packMiddle (lastFooterOf releaseUrl counts) t0.length t0 with hPM
    set HEAD := (if p ≠ [] then FC ++ str "\n" ++ joinLines p else FC) with hHEAD
    set TAIL := (if PM.2 then ([] : List JSStr) else [lastFooterOf releaseUrl counts])
      with hTAIL
    have hcontents : ∀ c ∈ HEAD :: (PM.1 ++ TAIL),
        c.length + numberingSuffix.length ≤ MAX_TWEET_LENGTH := by
      intro c hc
      rcases List.mem_cons.mp hc with h1 | h2
      · subst h1
        rw [hHEAD]
        by_cases hpn : p ≠ []
        · rw [if_pos hpn]
          rcases greedyFirst_bound FC (features.map truncateFeature) [] (Or.inl rfl)
            with hnil | hb
          · rw [hp] at hnil
            exact absurd hnil hpn
          · rw [hp] at hb
            exact hb
        · rw [if_neg hpn]
          exact hHeader
      · rcases List.mem_append.mp h2 with hmid | htail
        · refine packMiddle_bound (lastFooterOf releaseUrl counts) t0.length t0 ?_ c ?_
          · intro x hx
            have hxm : x ∈ features.map truncateFeature := by
              rw [← ht0]
              exact List.mem_append_right p hx
            obtain ⟨y, _, hy⟩ := List.mem_map.mp hxm
            rw [← hy]
            exact truncateFeature_le y
          · rw [← hPM]
            exact hmid
        · rw [hTAIL] at htail
          by_cases hfa : PM.2 = true
          · rw [if_pos hfa] at htail
            cases htail
          · rw [if_neg hfa] at htail
            rw [List.mem_singleton] at htail
            subst htail
            exact hFooter
    have hcount2 : (HEAD :: (PM.1 ++ TAIL)).length ≤ 99 := by
      have h1 : PM.1.length ≤ t0.length := by
        rw [hPM]
        exact packMiddle_count (lastFooterOf releaseUrl counts) t0.length t0
      have h2 : t0.length ≤ features.length := by
        have hl := congrArg List.length ht0
        rw [List.length_append, List.length_map] at hl
        omega
      have h3 : TAIL.length ≤ 1 := by
        rw [hTAIL]
        split <;> simp
      simp only [List.length_cons, List.length_append]
      omega
    exact numberFrom_le _ hcount2 _ 0 hcontents (by omega)

theorem formatTweets_budget_witness :
    ((formatTweets (str "0.92.0") [str "AlphaFeature"] (str "https://ex.am/r")
        ⟨1, 0, 0⟩).tweets.all (fun t => decide (t.length ≤ MAX_TWEET_LENGTH))) = true := by
  have h := formatTweets_budget (str "0.92.0") (str "https://ex.am/r") [str "AlphaFeature"]
    ⟨1, 0, 0⟩ (by decide) (by decide) (by decide)
  exact List.all_eq_true.mpr (fun t ht => decide_eq_true (h t ht))

/-- C1 counterexample: with a 300-character link, the footer segment of the
thread exceeds `MAX_TWEET_LENGTH` (it is 326 characters long). -/
theorem formatTweets_budget_cex :
    ((formatTweets (str "0.92.0") [] (List.replicate 300 98) ⟨0, 0, 0⟩).tweets.any
      (fun t => decide (MAX_TWEET_LENGTH < t.length))) = true := by
  decide
